import Mathlib

/-
Shallow embedding of the quippy value model and environment
- src/types.rs : value kinds, coercion, operators, Object key codec
- src/interp.rs : global/local binding environment

Modelling conventions:
- Rust i64 payloads are Lean Int (the i64 range is stated as a hypothesis
  where a claim quantifies over i64 values); wrapping arithmetic is made
  explicit with wrapI64.
- Rust usize thread ids are Lean Nat.
- Rust f64 payloads are Lean Float (IEEE 754 binary64, same as f64).
- Rust HashMap of String to QType is an association list together with
  insert-replaces semantics (objInsert / objLookup / objExtend); a HashMap
  never holds two entries with the same key, which is the Nodup hypothesis
  carried by theorems that depend on it.
- A Rust function that can abort the process maps to an Option result:
  none models the process abort, some models normal return.
-/

/-- Value type of the language, mirroring enum QType in src/types.rs.
Payloads: Int holds an i64, Float an f64, Thread an optional usize id,
Obj a string-keyed map (association list), Func a captured-scope object
and a unit body placeholder. -/
inductive QType where
  | Int : Int → QType
  | Float : Float → QType
  | Bool : Bool → QType
  | Str : String → QType
  | Void : QType
  | Err : QType
  | List : List QType → QType
  | Obj : List (String × QType) → QType
  | Thread : Option Nat → QType
  | Func : List (String × QType) → Unit → QType

/-- Alias for the Object payload, mirroring pub type QObject in src/types.rs. -/
abbrev QObject := List (String × QType)

/-- Decimal digit character for a value below ten. -/
def digitChar (d : Nat) : Char := Char.ofNat (48 + d)

/-- Canonical decimal digit string of a Nat, most significant digit first,
with a single zero character for zero — the text Rust's integer Display
produces for a nonnegative value. -/
def natToStr (n : Nat) : List Char :=
  if n = 0 then ['0'] else ((Nat.digits 10 n).reverse.map digitChar)

/-- Canonical decimal text of a signed integer, as Rust's i64 Display
(format with a leading minus sign for negative values). -/
def intToStr (i : Int) : List Char :=
  if i < 0 then '-' :: natToStr i.natAbs else natToStr i.toNat

/-- String form of natToStr. -/
def natStr (n : Nat) : String := String.mk (natToStr n)

/-- String form of intToStr. -/
def intStr (i : Int) : String := String.mk (intToStr i)

/-- Numeric value of one decimal digit character, none for a non-digit. -/
def charToDigit (c : Char) : Option Nat :=
  if '0' ≤ c ∧ c ≤ '9' then some (c.toNat - 48) else none

/-- Accumulating decimal evaluation of a digit string, most significant
digit first; none as soon as a non-digit appears. -/
def digitsValAux : Nat → List Char → Option Nat
  | acc, [] => some acc
  | acc, c :: rest =>
    match charToDigit c with
    | some d => digitsValAux (10 * acc + d) rest
    | none => none

/-- Decimal value of a nonempty all-digit string, none otherwise. -/
def digitsVal : List Char → Option Nat
  | [] => none
  | c :: rest => digitsValAux 0 (c :: rest)

/-- Rust str::parse::<i64>: an optional single sign followed by at least
one decimal digit, rejected when the value leaves the i64 range. -/
def parseI64 (s : List Char) : Option Int :=
  match s with
  | [] => none
  | c :: rest =>
    if c = '-' then
      (digitsVal rest).bind fun n =>
        if (n : Int) ≤ 2 ^ 63 then some (-(n : Int)) else none
    else if c = '+' then
      (digitsVal rest).bind fun n =>
        if (n : Int) ≤ 2 ^ 63 - 1 then some ((n : Int)) else none
    else
      (digitsVal (c :: rest)).bind fun n =>
        if (n : Int) ≤ 2 ^ 63 - 1 then some ((n : Int)) else none

/-- Decoder of Object keys, from fn from_qobj_key in src/types.rs: a key
whose first character is the dollar sigil denotes the String key written
after the sigil; any other key is parsed as i64, where the source unwraps
the parse so a failure aborts (modelled as none). -/
def from_qobj_key (k : String) : Option QType :=
  match k.data with
  | [] => (parseI64 []).map QType.Int
  | c :: rest =>
    if c = '$' then some (QType.Str (String.mk rest))
    else (parseI64 (c :: rest)).map QType.Int

/-- Encoder of Object keys, from fn to_qobj_key in src/types.rs: an Integer
key becomes its canonical decimal text, a String key is prefixed with the
dollar sigil, and any other kind aborts (modelled as none). -/
def to_qobj_key : QType → Option String
  | QType.Int i => some (intStr i)
  | QType.Str s => some ("$" ++ s)
  | _ => none

/-- Lookup in an association-list map: the value at the first matching key,
modelling HashMap::get. -/
def objLookup (k : String) : QObject → Option QType
  | [] => none
  | (k2, v) :: rest => if k2 = k then some v else objLookup k rest

/-- Insert into an association-list map, replacing the first entry with the
same key or appending a new entry, modelling HashMap::insert. -/
def objInsert (k : String) (v : QType) : QObject → QObject
  | [] => [(k, v)]
  | (k2, v2) :: rest =>
    if k2 = k then (k, v) :: rest else (k2, v2) :: objInsert k v rest

/-- Insert every entry of the right map into the left, modelling
HashMap::extend as used by QType::add on Objects. -/
def objExtend (l r : QObject) : QObject :=
  r.foldl (fun acc kv => objInsert kv.1 kv.2 acc) l

/-- Reduction of an integer into the i64 range, modelling the wrapping
(two's complement) behaviour of Rust's wrapping arithmetic. -/
def wrapI64 (x : Int) : Int := (x + 2 ^ 63) % 2 ^ 64 - 2 ^ 63

/-- Rust cast f as i64: zero for NaN, saturating at the i64 bounds,
otherwise truncation toward zero. Not exercised by any claim; present so
to_int matches the source arm for Float. -/
def f64AsI64 (f : Float) : Int :=
  if f.isNaN then 0
  else if f ≥ 9223372036854775807.0 then 2 ^ 63 - 1
  else if f ≤ -9223372036854775808.0 then -(2 ^ 63)
  else if f ≥ 0 then (f.toUInt64.toNat : Int)
  else -(((-f).toUInt64.toNat : Int))

/-- Digit-string prefix splitter used by parseF64. -/
def spanDigits : List Char → (List Nat × List Char)
  | [] => ([], [])
  | c :: rest =>
    match charToDigit c with
    | some d =>
      let (ds, tail) := spanDigits rest
      (d :: ds, tail)
    | none => ([], c :: rest)

/-- Decimal value of a digit list, most significant first. -/
def digitsToNat (ds : List Nat) : Nat := ds.foldl (fun a d => 10 * a + d) 0

/-- Rust str::parse::<f64> restricted to the plain decimal grammar of an
optional sign, digits, an optional fraction and an optional exponent;
the keyword forms (inf, NaN) are omitted. Not exercised by any claim;
present so to_float matches the source arm for Str. -/
def parseF64 (s : String) : Option Float :=
  let core : List Char → Bool → Option Float := fun cs neg =>
    let (ip, rest1) := spanDigits cs
    let (fp, rest2) :=
      match rest1 with
      | '.' :: tl => spanDigits tl
      | _ => ([], rest1)
    let expPart : Option Int :=
      match rest2 with
      | [] => some 0
      | 'e' :: tl =>
        (match tl with
         | '-' :: tl2 => (digitsVal tl2).map (fun n => -(n : Int))
         | '+' :: tl2 => digitsVal tl2
         | _ => (digitsVal tl).map (fun n => (n : Int)))
      | 'E' :: tl =>
        (match tl with
         | '-' :: tl2 => (digitsVal tl2).map (fun n => -(n : Int))
         | '+' :: tl2 => digitsVal tl2
         | _ => (digitsVal tl).map (fun n => (n : Int)))
      | _ => none
    if ip.isEmpty ∧ fp.isEmpty then none
    else
      expPart.map fun e =>
        let mantissa := digitsToNat ip * 10 ^ fp.length + digitsToNat fp
        let exp : Int := e - fp.length
        let mag :=
          if exp ≥ 0 then Float.ofNat (mantissa * 10 ^ exp.toNat)
          else Float.ofScientific mantissa true exp.natAbs
        if neg then -mag else mag
  match s.data with
  | '-' :: tl => core tl true
  | '+' :: tl => core tl false
  | cs => core cs false
/-- Truncated float remainder f - g * trunc(f / g), modelling Rust's f64
remainder operator. Not exercised by any claim. -/
def f64Rem (f g : Float) : Float :=
  let q := f / g
  let t := if q ≥ 0 then q.floor else q.ceil
  f - g * t

/-- Structural kind test, from fn like in src/types.rs: Bool true when both
operands are the same variant, payloads ignored; Bool false otherwise. -/
def like (lhs rhs : QType) : QType :=
  match lhs, rhs with
  | .Void, .Void => .Bool true
  | .Err, .Err => .Bool true
  | .Int _, .Int _ => .Bool true
  | .Float _, .Float _ => .Bool true
  | .Bool _, .Bool _ => .Bool true
  | .Str _, .Str _ => .Bool true
  | .List _, .List _ => .Bool true
  | .Obj _, .Obj _ => .Bool true
  | .Func _ _, .Func _ _ => .Bool true
  | .Thread _, .Thread _ => .Bool true
  | _, _ => .Bool false

/-- Coercion into the Integer kind, from fn to_int in src/types.rs. -/
def to_int : QType → QType
  | .Bool b => .Int (if b then 1 else 0)
  | .Float f => .Int (f64AsI64 f)
  | .Str s =>
    match parseI64 s.data with
    | some i => .Int i
    | none => .Err
  | _ => .Err

/-- Coercion into the Float kind, from fn to_float in src/types.rs. -/
def to_float : QType → QType
  | .Bool b => .Float (Float.ofInt (if b then 1 else 0))
  | .Int i => .Float (Float.ofInt i)
  | .Str s =>
    match parseF64 s with
    | some f => .Float f
    | none => .Err
  | _ => .Err

/-- Coercion into the Boolean kind, from fn to_bool in src/types.rs. -/
def to_bool : QType → QType
  | .Int i => .Bool (decide (i ≠ 0))
  | .Float f => .Bool (!(f == 0.0))
  | .Str s => .Bool (decide (s.length ≠ 0))
  | .Void => .Bool true
  | .Err => .Bool false
  | .List l => .Bool (decide (l.length ≠ 0))
  | .Obj o => .Bool (decide (o.length ≠ 0))
  | _ => .Err

/-- Coercion into the List kind, from fn to_list in src/types.rs: the bytes
of a Str as Integers, or the decoded logical keys of an Obj, where a
malformed key aborts through from_qobj_key (none). -/
def to_list : QType → Option QType
  | .Str s => some (.List (s.toUTF8.toList.map (fun b => .Int (Int.ofNat b.toNat))))
  | .Obj o => (o.mapM (fun kv => from_qobj_key kv.1)).map .List
  | _ => some .Err

/-- Coercion into the Object kind, from fn to_obj in src/types.rs: bytes of
a Str or elements of a List keyed by their canonical decimal position. -/
def to_obj : QType → QType
  | .Str s =>
    .Obj (s.toUTF8.toList.enum.map (fun p => (intStr (Int.ofNat p.1), .Int (Int.ofNat p.2.toNat))))
  | .List l => .Obj (l.enum.map (fun p => (intStr (Int.ofNat p.1), p.2)))
  | _ => .Err

mutual

/-- Coercion into the String kind, from fn to_str in src/types.rs. A Str is
always produced except when decoding a malformed Obj key aborts, which
propagates as none. The final source arm returns the operand unchanged and
is only reached by a Str operand, which it therefore passes through. -/
def to_str : QType → Option QType
  | .Str s => some (.Str s)
  | .Int i => some (.Str (intStr i))
  | .Float f => some (.Str f.toString)
  | .Bool b => some (.Str (if b then "true" else "false"))
  | .Void => some (.Str "()")
  | .Err => some (.Str "err")
  | .Func _ _ => some (.Str "\\(...) => ...")
  | .Thread none => some (.Str "@this")
  | .Thread (some t) => some (.Str ("@" ++ natStr t))
  | .List l => (strList l).map (fun s => .Str ("[" ++ s ++ "]"))
  | .Obj o =>
    if o.length = 0 then some (.Str "\x7b\x7d")
    else (strObj o).map (fun s => .Str ("\x7b " ++ s ++ " \x7d"))

/-- Separator-free concatenation of the stringified elements of a list, as
built by the extend call in the List arm of fn to_str. -/
def strList : List QType → Option String
  | [] => some ""
  | q :: rest =>
    match to_str q with
    | some (.Str e) => (strList rest).map (fun s => e ++ s)
    | some _ => none
    | none => none

/-- Separator-free concatenation of key: value renderings of the entries of
an object, as built by the extend call in the Obj arm of fn to_str; string
keys are quoted, integer keys are not, and a malformed key aborts. -/
def strObj : List (String × QType) → Option String
  | [] => some ""
  | (k, v) :: rest =>
    match to_str v with
    | some (.Str value) =>
      (match from_qobj_key k with
       | some (.Str key) =>
         (strObj rest).map (fun s => ("\"" ++ key ++ "\": " ++ value) ++ s)
       | some (.Int key) =>
         (strObj rest).map (fun s => (intStr key ++ ": " ++ value) ++ s)
       | some _ => none
       | none => none)
    | some _ => none
    | none => none

end

/-- Coercion dispatcher, from fn into in src/types.rs: identity when the
kinds already match, otherwise dispatch on the target kind; the Str and
List targets can abort through to_str and to_list. -/
def into (lhs rhs : QType) : Option QType :=
  match like lhs rhs with
  | .Bool true => some lhs
  | _ =>
    match rhs with
    | .Void => some .Void
    | .Err => some .Err
    | .Func _ _ => some .Err
    | .Thread _ => some .Err
    | .Int _ => some (to_int lhs)
    | .Float _ => some (to_float lhs)
    | .Bool _ => some (to_bool lhs)
    | .Str _ => to_str lhs
    | .List _ => to_list lhs
    | .Obj _ => some (to_obj lhs)

/-- Addition, from fn add in src/types.rs: wrapping Int addition, Float
addition, Str and List concatenation, Obj union via HashMap::extend (the
right operand inserted over the left), Err elsewhere. -/
def add (lhs rhs : QType) : QType :=
  match lhs, rhs with
  | .Int l, .Int r => .Int (wrapI64 (l + r))
  | .Float l, .Float r => .Float (l + r)
  | .Str l, .Str r => .Str (l ++ r)
  | .List l, .List r => .List (l ++ r)
  | .Obj l, .Obj r => .Obj (objExtend l r)
  | _, _ => .Err

/-- Division, from fn div in src/types.rs: i64::wrapping_div, which aborts
on a zero divisor (none) and wraps the single overflow case; Float
division; Err elsewhere. -/
def div (lhs rhs : QType) : Option QType :=
  match lhs, rhs with
  | .Int l, .Int r => if r = 0 then none else some (.Int (wrapI64 (Int.tdiv l r)))
  | .Float l, .Float r => some (.Float (l / r))
  | _, _ => some .Err

/-- Remainder, from fn modulo in src/types.rs: i64::wrapping_rem, which
aborts on a zero divisor (none); Float remainder; Err elsewhere. -/
def modulo (lhs rhs : QType) : Option QType :=
  match lhs, rhs with
  | .Int l, .Int r => if r = 0 then none else some (.Int (wrapI64 (Int.tmod l r)))
  | .Float l, .Float r => some (.Float (f64Rem l r))
  | _, _ => some .Err

/-- Indexing, from fn index in src/types.rs: a List indexed by a
nonnegative in-bounds Int yields the element, any other index yields Err;
an Obj is indexed through the key codec, whose encoder aborts on a key
that is neither Int nor Str (none); every other receiver yields Err. -/
def index (lhs rhs : QType) : Option QType :=
  match lhs with
  | .List l =>
    some
      (match rhs with
       | .Int idx =>
         if 0 ≤ idx then
           match l.get? idx.toNat with
           | some e => e
           | none => .Err
         else .Err
       | _ => .Err)
  | .Obj o =>
    (to_qobj_key rhs).map fun key =>
      match objLookup key o with
      | some v => v
      | none => .Err
  | _ => some .Err

/-- Strict less-than, from fn lt in src/types.rs: natural order on Int,
Float and Str; Thread compares defined ids, any comparison through the
current-thread placeholder is false; every other pairing is false. -/
def lt (lhs rhs : QType) : QType :=
  match lhs, rhs with
  | .Int l, .Int r => .Bool (decide (l < r))
  | .Float l, .Float r => .Bool (l < r)
  | .Str l, .Str r => .Bool (decide (l < r))
  | .Thread none, .Thread _ => .Bool false
  | .Thread _, .Thread none => .Bool false
  | .Thread (some l), .Thread (some r) => .Bool (decide (l < r))
  | _, _ => .Bool false

/-- Strict greater-than, from fn gt in src/types.rs. -/
def gt (lhs rhs : QType) : QType :=
  match lhs, rhs with
  | .Int l, .Int r => .Bool (decide (r < l))
  | .Float l, .Float r => .Bool (r < l)
  | .Str l, .Str r => .Bool (decide (r < l))
  | .Thread none, .Thread _ => .Bool false
  | .Thread _, .Thread none => .Bool false
  | .Thread (some l), .Thread (some r) => .Bool (decide (r < l))
  | _, _ => .Bool false

/-- Less-or-equal, from fn le in src/types.rs. -/
def le (lhs rhs : QType) : QType :=
  match lhs, rhs with
  | .Int l, .Int r => .Bool (decide (l ≤ r))
  | .Float l, .Float r => .Bool (l ≤ r)
  | .Str l, .Str r => .Bool (decide (l ≤ r))
  | .Thread none, .Thread _ => .Bool false
  | .Thread _, .Thread none => .Bool false
  | .Thread (some l), .Thread (some r) => .Bool (decide (l ≤ r))
  | _, _ => .Bool false

/-- Greater-or-equal, from fn ge in src/types.rs. -/
def ge (lhs rhs : QType) : QType :=
  match lhs, rhs with
  | .Int l, .Int r => .Bool (decide (r ≤ l))
  | .Float l, .Float r => .Bool (r ≤ l)
  | .Str l, .Str r => .Bool (decide (r ≤ l))
  | .Thread none, .Thread _ => .Bool false
  | .Thread _, .Thread none => .Bool false
  | .Thread (some l), .Thread (some r) => .Bool (decide (r ≤ l))
  | _, _ => .Bool false

mutual

/-- Well-formedness of the Object keys reachable inside a value: every key
of every Obj component decodes under the key codec. This is the
representation invariant the spec imposes on codec-produced keys. -/
def wfQ : QType → Bool
  | QType.List l => wfL l
  | QType.Obj o => wfO o
  | _ => true

/-- Pointwise wfQ over list elements. -/
def wfL : List QType → Bool
  | [] => true
  | x :: xs => wfQ x && wfL xs

/-- Key decodability and pointwise wfQ over object entries. -/
def wfO : List (String × QType) → Bool
  | [] => true
  | (k, v) :: rest => (from_qobj_key k).isSome && wfQ v && wfO rest

end

/-- Stringification of a value as a plain String, projecting to_str; the
empty string stands in for the unreachable non-Str and abort outcomes. -/
def strOf (v : QType) : String :=
  match to_str v with
  | some (QType.Str s) => s
  | _ => ""

/-- Separator-free concatenation of a list of strings. -/
def concatStrs : List String → String
  | [] => ""
  | s :: rest => s ++ concatStrs rest

/-- Interpreter environment, from struct QInterp in src/interp.rs: a global
binding table and a stack of local scope frames, the top frame last. -/
structure QInterp where
  globals : QObject
  locals : List QObject

/-- Initial environment, from QInterp::init: empty globals and exactly one
empty local frame. -/
def QInterp.init : QInterp := ⟨[], [[]]⟩

/-- Global store, from QInterp::store_global: HashMap::insert into the
global table, discarding the previous value. -/
def QInterp.store_global (st : QInterp) (name : String) (value : QType) : QInterp :=
  { st with globals := objInsert name value st.globals }

/-- Global fetch, from QInterp::fetch_global: a clone of the bound value,
none when the name is unbound; the environment is taken by shared
reference and cannot change. -/
def QInterp.fetch_global (st : QInterp) (name : String) : Option QType :=
  objLookup name st.globals

/-- Local store, from QInterp::store_local: insert into the frame at index
len - 1 of the local stack; with an empty stack the index computation and
lookup fail and the source aborts (none). -/
def QInterp.store_local (st : QInterp) (name : String) (value : QType) : Option QInterp :=
  match st.locals.get? (st.locals.length - 1) with
  | some s =>
    some { st with locals := st.locals.set (st.locals.length - 1) (objInsert name value s) }
  | none => none

/-
Arithmetic text lemmas for the key codec.
-/

/-- Every digit below ten maps to a decimal character that charToDigit
inverts and that is none of the sigil and sign characters. -/
theorem digitChar_props :
    ∀ d < 10, charToDigit (digitChar d) = some d ∧
      digitChar d ≠ '$' ∧ digitChar d ≠ '+' ∧ digitChar d ≠ '-' := by decide

/-- Accumulator evaluation of a mapped digit list. -/
theorem digitsValAux_map (es : List Nat) (h : ∀ d ∈ es, d < 10) :
    ∀ acc, digitsValAux acc (es.map digitChar) =
      some (es.foldl (fun a d => 10 * a + d) acc) := by
  induction es with
  | nil => intro acc; rfl
  | cons e es ih =>
    intro acc
    have he : e < 10 := h e (List.mem_cons_self e es)
    have hc := (digitChar_props e he).1
    have ihe := ih (fun d hd => h d (List.mem_cons_of_mem e hd)) (10 * acc + e)
    simp only [List.map_cons, digitsValAux, hc, List.foldl_cons]
    exact ihe

/-- Decimal accumulation over the reversed little-endian digit list equals
the Nat.ofDigits value shifted by the accumulator. -/
theorem foldl_reverse_ofDigits (ds : List Nat) (acc : Nat) :
    ds.reverse.foldl (fun a d => 10 * a + d) acc =
      acc * 10 ^ ds.length + Nat.ofDigits 10 ds := by
  induction ds generalizing acc with
  | nil => simp
  | cons d t ih =>
    simp only [List.reverse_cons, List.foldl_append, List.foldl_cons,
      List.foldl_nil, ih, Nat.ofDigits_cons, List.length_cons, pow_succ]
    ring

/-- The canonical decimal text of a Nat evaluates back to it. -/
theorem digitsVal_natToStr (n : Nat) : digitsVal (natToStr n) = some n := by
  by_cases h0 : n = 0
  · subst h0; rfl
  · have hne2 : (Nat.digits 10 n).reverse ≠ [] := by
      simpa using Nat.digits_ne_nil_iff_ne_zero.mpr h0
    obtain ⟨e, es, hees⟩ := List.exists_cons_of_ne_nil hne2
    have hlt : ∀ d ∈ (Nat.digits 10 n).reverse, d < 10 := fun d hd =>
      Nat.digits_lt_base (by norm_num) (List.mem_reverse.mp hd)
    have hmain := digitsValAux_map (Nat.digits 10 n).reverse hlt 0
    have hfold := foldl_reverse_ofDigits (Nat.digits 10 n) 0
    have hcons : natToStr n = digitChar e :: es.map digitChar := by
      rw [show natToStr n = (Nat.digits 10 n).reverse.map digitChar by
        simp [natToStr, h0], hees, List.map_cons]
    rw [hcons]
    show digitsValAux 0 (digitChar e :: es.map digitChar) = some n
    rw [← List.map_cons, ← hees, hmain, hfold, Nat.ofDigits_digits]
    simp

/-- Shape of the canonical decimal text: a digit character head. -/
theorem natToStr_shape (n : Nat) :
    ∃ d cs, natToStr n = digitChar d :: cs ∧ d < 10 := by
  by_cases h0 : n = 0
  · exact ⟨0, [], by subst h0; rfl, by norm_num⟩
  · have hne : Nat.digits 10 n ≠ [] := Nat.digits_ne_nil_iff_ne_zero.mpr h0
    have hne2 : (Nat.digits 10 n).reverse ≠ [] := by simpa using hne
    obtain ⟨e, es, hees⟩ := List.exists_cons_of_ne_nil hne2
    refine ⟨e, es.map digitChar, ?_, ?_⟩
    · simp [natToStr, h0, hees]
    · exact Nat.digits_lt_base (by norm_num)
        (List.mem_reverse.mp (hees ▸ List.mem_cons_self e es))

/-- Rust's i64 parser inverts the canonical decimal text of a Nat that
fits the positive i64 range. -/
theorem parseI64_natToStr (n : Nat) (h : (n : Int) ≤ 2 ^ 63 - 1) :
    parseI64 (natToStr n) = some (n : Int) := by
  obtain ⟨d, cs, hshape, hd⟩ := natToStr_shape n
  have hprops := digitChar_props d hd
  rw [hshape]
  show parseI64 (digitChar d :: cs) = some (n : Int)
  rw [parseI64]
  rw [if_neg hprops.2.2.2, if_neg hprops.2.2.1]
  rw [← hshape, digitsVal_natToStr]
  simp only [Option.some_bind]
  rw [if_pos h]

/-- Rust's i64 parser inverts the canonical decimal text of any integer in
the i64 range. -/
theorem parseI64_intToStr (i : Int) (h1 : -(2 ^ 63) ≤ i) (h2 : i ≤ 2 ^ 63 - 1) :
    parseI64 (intToStr i) = some i := by
  by_cases hneg : i < 0
  · have : intToStr i = '-' :: natToStr i.natAbs := by simp [intToStr, hneg]
    rw [this, parseI64, if_pos rfl, digitsVal_natToStr]
    have hle : (i.natAbs : Int) ≤ 2 ^ 63 := by omega
    simp only [Option.some_bind]
    rw [if_pos hle]
    congr 1
    omega
  · have : intToStr i = natToStr i.toNat := by simp [intToStr, hneg]
    rw [this, parseI64_natToStr i.toNat (by omega)]
    congr 1
    omega

/-- The first character of the canonical decimal text is never the sigil. -/
theorem intToStr_shape (i : Int) :
    ∃ c cs, intToStr i = c :: cs ∧ c ≠ '$' := by
  by_cases hneg : i < 0
  · exact ⟨'-', natToStr i.natAbs, by simp [intToStr, hneg], by decide⟩
  · obtain ⟨d, cs, hshape, hd⟩ := natToStr_shape i.toNat
    exact ⟨digitChar d, cs, by simp [intToStr, hneg, hshape],
      (digitChar_props d hd).2.1⟩

/-- Decoding the canonical decimal key of an i64 value recovers it. -/
theorem from_qobj_key_intStr (i : Int) (h1 : -(2 ^ 63) ≤ i) (h2 : i ≤ 2 ^ 63 - 1) :
    from_qobj_key (intStr i) = some (QType.Int i) := by
  obtain ⟨c, cs, hshape, hc⟩ := intToStr_shape i
  have hdata : (intStr i).data = c :: cs := by
    simp [intStr, hshape]
  rw [from_qobj_key, hdata]
  show (if c = '$' then some (QType.Str (String.mk cs))
        else (parseI64 (c :: cs)).map QType.Int) = some (QType.Int i)
  rw [if_neg hc, ← hshape, parseI64_intToStr i h1 h2]
  rfl

/-- Decoding the sigil-prefixed key of a String value recovers it. -/
theorem from_qobj_key_strKey (s : String) :
    from_qobj_key ("$" ++ s) = some (QType.Str s) := by
  obtain ⟨l⟩ := s
  rfl

/-- C3: the Object key codec round-trips — decoding the encoding of an
Integer key in the i64 range yields the same Integer, and decoding the
encoding of a String key yields the same String. -/
theorem c3_key_codec_roundtrip :
    (∀ i : Int, -(2 ^ 63) ≤ i → i ≤ 2 ^ 63 - 1 →
      (to_qobj_key (QType.Int i)).bind from_qobj_key = some (QType.Int i)) ∧
    (∀ s : String,
      (to_qobj_key (QType.Str s)).bind from_qobj_key = some (QType.Str s)) := by
  constructor
  · intro i h1 h2
    show from_qobj_key (intStr i) = some (QType.Int i)
    exact from_qobj_key_intStr i h1 h2
  · intro s
    show from_qobj_key ("$" ++ s) = some (QType.Str s)
    exact from_qobj_key_strKey s

/-- C3 witness: the round-trip evaluated at a negative Integer key and at a
concrete String key. -/
theorem c3_key_codec_roundtrip_witness :
    (to_qobj_key (QType.Int (-37))).bind from_qobj_key = some (QType.Int (-37)) ∧
    (to_qobj_key (QType.Str "ab")).bind from_qobj_key = some (QType.Str "ab") :=
  ⟨c3_key_codec_roundtrip.1 (-37) (by norm_num) (by norm_num),
   c3_key_codec_roundtrip.2 "ab"⟩

/-- C2: coercing a value into a target shape of its own kind returns the
value unchanged, for every pairing whose kinds match (like yields Bool
true exactly on matching kinds, for all ten of them). -/
theorem c2_into_identity (v target : QType)
    (h : like v target = QType.Bool true) : into v target = some v := by
  rw [into.eq_def, h]

/-- C2 witness: identity coercion evaluated with an Error value and Error
target, and with a Void value and Void target. -/
theorem c2_into_identity_witness :
    into QType.Err QType.Err = some QType.Err ∧
    into QType.Void QType.Void = some QType.Void :=
  ⟨c2_into_identity QType.Err QType.Err rfl,
   c2_into_identity QType.Void QType.Void rfl⟩

/-
Association-map lemmas for HashMap semantics.
-/

/-- Lookup after inserting the same key yields the inserted value. -/
theorem objLookup_objInsert_self (k : String) (v : QType) (o : QObject) :
    objLookup k (objInsert k v o) = some v := by
  induction o with
  | nil => simp [objInsert, objLookup]
  | cons kv rest ih =>
    obtain ⟨k2, v2⟩ := kv
    by_cases h : k2 = k
    · subst h; simp [objInsert, objLookup]
    · simp [objInsert, objLookup, h, ih]

/-- Lookup of a different key is unchanged by an insert. -/
theorem objLookup_objInsert_ne {k k2 : String} (v : QType) (o : QObject)
    (h : k2 ≠ k) : objLookup k (objInsert k2 v o) = objLookup k o := by
  induction o with
  | nil => simp [objInsert, objLookup, h]
  | cons kv rest ih =>
    obtain ⟨k3, v3⟩ := kv
    by_cases h3 : k3 = k2
    · subst h3
      simp [objInsert, objLookup, h]
    · by_cases hk : k3 = k
      · subst hk
        simp [objInsert, objLookup, h3]
      · simp [objInsert, objLookup, h3, hk, ih]

/-- A key absent from the key list of a map looks up to none. -/
theorem objLookup_eq_none_of_not_mem {k : String} {o : QObject}
    (h : k ∉ o.map Prod.fst) : objLookup k o = none := by
  induction o with
  | nil => rfl
  | cons kv rest ih =>
    obtain ⟨k2, v2⟩ := kv
    simp only [List.map_cons, List.mem_cons] at h
    push_neg at h
    simp [objLookup, Ne.symm h.1, ih h.2]

/-- HashMap::extend semantics pointwise: after extending the left map with
a duplicate-free right map, every key looks up to the right map's value
when bound there and to the left map's value otherwise. -/
theorem objLookup_objExtend (l r : QObject) (hr : (r.map Prod.fst).Nodup)
    (k : String) :
    objLookup k (objExtend l r) =
      (objLookup k r).orElse (fun _ => objLookup k l) := by
  induction r generalizing l with
  | nil => simp [objExtend, objLookup, Option.orElse]
  | cons kv rest ih =>
    obtain ⟨a, v⟩ := kv
    simp only [List.map_cons, List.nodup_cons] at hr
    have hext : objExtend l ((a, v) :: rest) = objExtend (objInsert a v l) rest := rfl
    rw [hext, ih (objInsert a v l) hr.2]
    by_cases hk : a = k
    · subst hk
      have hnone : objLookup a rest = none :=
        objLookup_eq_none_of_not_mem (by
          intro hmem
          exact hr.1 hmem)
      rw [hnone, objLookup_objInsert_self]
      simp [objLookup, Option.orElse]
    · rw [objLookup_objInsert_ne v l hk]
      simp [objLookup, hk, Option.orElse]

/-- C5: add concatenates Lists in order, and on Objects it is the key
union in which the right operand's binding wins on every colliding key
(stated pointwise through objLookup; the Nodup hypothesis records that a
HashMap holds at most one entry per key). -/
theorem c5_add_concat_union :
    (∀ l r : List QType, add (QType.List l) (QType.List r) = QType.List (l ++ r)) ∧
    (∀ l r : QObject, (r.map Prod.fst).Nodup →
      ∃ o : QObject, add (QType.Obj l) (QType.Obj r) = QType.Obj o ∧
        ∀ k, objLookup k o = (objLookup k r).orElse (fun _ => objLookup k l)) := by
  constructor
  · intro l r
    rfl
  · intro l r hr
    exact ⟨objExtend l r, rfl, fun k => objLookup_objExtend l r hr k⟩

/-- C5 witness: concrete concatenation and a right-wins key collision. -/
theorem c5_add_concat_union_witness :
    add (QType.List [QType.Int 1, QType.Int 2]) (QType.List [QType.Int 3]) =
      QType.List [QType.Int 1, QType.Int 2, QType.Int 3] ∧
    ∃ o : QObject,
      add (QType.Obj [("$a", QType.Int 1)]) (QType.Obj [("$a", QType.Int 2)]) =
        QType.Obj o ∧
      ∀ k, objLookup k o =
        (objLookup k [("$a", QType.Int 2)]).orElse
          (fun _ => objLookup k [("$a", QType.Int 1)]) :=
  ⟨c5_add_concat_union.1 [QType.Int 1, QType.Int 2] [QType.Int 3],
   c5_add_concat_union.2 [("$a", QType.Int 1)] [("$a", QType.Int 2)] (by simp)⟩

/-- C4: indexing a List with an in-range nonnegative Int yields the element
at that position, and a negative Int, an out-of-range Int, or a non-Int
index yields Err. -/
theorem c4_index_list (xs : List QType) :
    (∀ (i : Int) (h0 : 0 ≤ i) (h : i.toNat < xs.length),
      index (QType.List xs) (QType.Int i) = some (xs.get ⟨i.toNat, h⟩)) ∧
    (∀ i : Int, i < 0 → index (QType.List xs) (QType.Int i) = some QType.Err) ∧
    (∀ i : Int, 0 ≤ i → xs.length ≤ i.toNat →
      index (QType.List xs) (QType.Int i) = some QType.Err) ∧
    (∀ k : QType, (∀ i : Int, k ≠ QType.Int i) →
      index (QType.List xs) k = some QType.Err) := by
  refine ⟨?_, ?_, ?_, ?_⟩
  · intro i h0 h
    show some (if 0 ≤ i then
        match xs.get? i.toNat with
        | some e => e
        | none => QType.Err
      else QType.Err) = some (xs.get ⟨i.toNat, h⟩)
    rw [if_pos h0, List.get?_eq_get h]
  · intro i hneg
    show some (if 0 ≤ i then
        match xs.get? i.toNat with
        | some e => e
        | none => QType.Err
      else QType.Err) = some QType.Err
    rw [if_neg (not_le.mpr hneg)]
  · intro i h0 hlen
    have hnone : xs.get? i.toNat = none := List.get?_eq_none.mpr hlen
    show some (if 0 ≤ i then
        match xs.get? i.toNat with
        | some e => e
        | none => QType.Err
      else QType.Err) = some QType.Err
    rw [if_pos h0, hnone]
  · intro k hk
    cases k
    case Int i => exact absurd rfl (hk i)
    all_goals rfl

/-- C4 witness: the spec's three example lookups plus a non-Int index. -/
theorem c4_index_list_witness :
    index (QType.List [QType.Int 10, QType.Int 20, QType.Int 30]) (QType.Int 1) =
      some (QType.Int 20) ∧
    index (QType.List [QType.Int 10, QType.Int 20, QType.Int 30]) (QType.Int (-1)) =
      some QType.Err ∧
    index (QType.List [QType.Int 10, QType.Int 20, QType.Int 30]) (QType.Int 99) =
      some QType.Err ∧
    index (QType.List [QType.Int 10, QType.Int 20, QType.Int 30]) (QType.Bool true) =
      some QType.Err :=
  ⟨(c4_index_list [QType.Int 10, QType.Int 20, QType.Int 30]).1 1 (by decide) (by decide),
   (c4_index_list [QType.Int 10, QType.Int 20, QType.Int 30]).2.1 (-1) (by decide),
   (c4_index_list [QType.Int 10, QType.Int 20, QType.Int 30]).2.2.1 99 (by decide) (by decide),
   (c4_index_list [QType.Int 10, QType.Int 20, QType.Int 30]).2.2.2 (QType.Bool true)
     (fun i h => QType.noConfusion h)⟩

/-- C1 (evidence for the code bug): integer division and remainder with a
zero right operand reach i64::wrapping_div and i64::wrapping_rem with a
zero divisor, which abort the process; the embedding returns none (abort)
instead of the Error value the specification requires. -/
theorem c1_div_modulo_zero_abort :
    div (QType.Int 1) (QType.Int 0) = none ∧
    modulo (QType.Int 1) (QType.Int 0) = none :=
  ⟨rfl, rfl⟩

/-- C7: for all four ordering operators, a comparison in which either side
is the current-thread placeholder is Bool false in both argument orders,
while two defined thread ids compare under the corresponding order on
their ids. -/
theorem c7_thread_ordering :
    ∀ (t : Option Nat) (l r : Nat),
      (lt (QType.Thread none) (QType.Thread t) = QType.Bool false ∧
       lt (QType.Thread t) (QType.Thread none) = QType.Bool false ∧
       (lt (QType.Thread (some l)) (QType.Thread (some r)) = QType.Bool true ↔ l < r)) ∧
      (gt (QType.Thread none) (QType.Thread t) = QType.Bool false ∧
       gt (QType.Thread t) (QType.Thread none) = QType.Bool false ∧
       (gt (QType.Thread (some l)) (QType.Thread (some r)) = QType.Bool true ↔ r < l)) ∧
      (le (QType.Thread none) (QType.Thread t) = QType.Bool false ∧
       le (QType.Thread t) (QType.Thread none) = QType.Bool false ∧
       (le (QType.Thread (some l)) (QType.Thread (some r)) = QType.Bool true ↔ l ≤ r)) ∧
      (ge (QType.Thread none) (QType.Thread t) = QType.Bool false ∧
       ge (QType.Thread t) (QType.Thread none) = QType.Bool false ∧
       (ge (QType.Thread (some l)) (QType.Thread (some r)) = QType.Bool true ↔ r ≤ l)) := by
  intro t l r
  refine ⟨⟨?_, ?_, ?_⟩, ⟨?_, ?_, ?_⟩, ⟨?_, ?_, ?_⟩, ⟨?_, ?_, ?_⟩⟩ <;>
    first
      | (cases t <;> rfl)
      | simp [lt, gt, le, ge]

/-
Environment lemmas.
-/

/-- Setting the position after a concatenated singleton replaces that last
element. -/
theorem set_concat_last {α : Type} (ys : List α) (y x : α) :
    (ys ++ [y]).set ys.length x = ys ++ [x] := by
  induction ys with
  | nil => rfl
  | cons a t ih =>
    show a :: (t ++ [y]).set t.length x = a :: (t ++ [x])
    rw [ih]

/-- Behaviour of store_local on a nonempty stack: the stack splits as the
lower frames followed by the top frame, and the store succeeds, keeps the
globals and the lower frames, and inserts into the top frame only. -/
theorem store_local_spec (st : QInterp) (n : String) (v : QType)
    (h : st.locals ≠ []) :
    ∃ ys top, st.locals = ys ++ [top] ∧
      st.store_local n v = some ⟨st.globals, ys ++ [objInsert n v top]⟩ := by
  rcases List.eq_nil_or_concat st.locals with hnil | ⟨ys, top, heq⟩
  · exact absurd hnil h
  · rw [List.concat_eq_append] at heq
    refine ⟨ys, top, heq, ?_⟩
    have hlen : (ys ++ [top]).length - 1 = ys.length := by simp
    have hget : (ys ++ [top]).get? ((ys ++ [top]).length - 1) = some top := by
      rw [hlen]
      exact List.get?_concat_length ys top
    unfold QInterp.store_local
    rw [heq, hget]
    show some (⟨st.globals, (ys ++ [top]).set ((ys ++ [top]).length - 1) (objInsert n v top)⟩ : QInterp) =
      some (⟨st.globals, ys ++ [objInsert n v top]⟩ : QInterp)
    rw [hlen, set_concat_last]

/-- C8: the local stack is non-empty in every reachable state — init
creates exactly one empty frame, store_global leaves the stack untouched,
and store_local on a non-empty stack succeeds and returns a non-empty
stack; fetch_global takes the environment by shared reference (it returns
no new state in the embedding) and so cannot empty the stack. -/
theorem c8_locals_stack_nonempty :
    QInterp.init.locals = [[]] ∧
    (∀ (st : QInterp) (n : String) (v : QType),
      (st.store_global n v).locals = st.locals) ∧
    (∀ (st : QInterp) (n : String) (v : QType), st.locals ≠ [] →
      ∃ st2, st.store_local n v = some st2 ∧ st2.locals ≠ []) := by
  refine ⟨rfl, fun st n v => rfl, fun st n v h => ?_⟩
  obtain ⟨ys, top, heq, hstore⟩ := store_local_spec st n v h
  exact ⟨_, hstore, by simp⟩

/-- C8 witness: the initial stack is the one empty frame, and store_local
from the initial state succeeds with a non-empty stack. -/
theorem c8_locals_stack_nonempty_witness :
    QInterp.init.locals = [[]] ∧
    ∃ st2, QInterp.init.store_local "x" (QType.Int 5) = some st2 ∧
      st2.locals ≠ [] :=
  ⟨c8_locals_stack_nonempty.1,
   c8_locals_stack_nonempty.2.2 QInterp.init "x" (QType.Int 5)
     (by simp [QInterp.init])⟩

/-- C9: store_global always succeeds and overwrites unconditionally — an
immediately following fetch_global of the same name returns the stored
value whatever was bound before — and fetch_global of an unbound name
returns nothing; fetch_global takes the environment by shared reference,
so it has no side effect by construction. -/
theorem c9_store_fetch_global :
    (∀ (st : QInterp) (n : String) (v : QType),
      (st.store_global n v).fetch_global n = some v) ∧
    (∀ (st : QInterp) (n : String),
      objLookup n st.globals = none → st.fetch_global n = none) := by
  constructor
  · intro st n v
    show objLookup n (objInsert n v st.globals) = some v
    exact objLookup_objInsert_self n v st.globals
  · intro st n h
    exact h

/-- C9 witness: a store followed by a fetch of the same name, and a fetch
of an unbound name in the initial environment. -/
theorem c9_store_fetch_global_witness :
    (QInterp.init.store_global "x" (QType.Int 7)).fetch_global "x" =
      some (QType.Int 7) ∧
    QInterp.init.fetch_global "y" = none :=
  ⟨c9_store_fetch_global.1 QInterp.init "x" (QType.Int 7),
   c9_store_fetch_global.2 QInterp.init "y" rfl⟩

/-- C10: store_local mutates only the top frame — the globals and every
lower frame are returned unchanged — and store_global mutates only the
globals table, leaving the whole local stack unchanged. -/
theorem c10_store_effects_localized :
    (∀ (st : QInterp) (n : String) (v : QType), st.locals ≠ [] →
      ∃ ys top, st.locals = ys ++ [top] ∧
        st.store_local n v = some ⟨st.globals, ys ++ [objInsert n v top]⟩) ∧
    (∀ (st : QInterp) (n : String) (v : QType),
      (st.store_global n v).locals = st.locals ∧
      (st.store_global n v).globals = objInsert n v st.globals) :=
  ⟨store_local_spec, fun _ _ _ => ⟨rfl, rfl⟩⟩

/-- C10 witness: the effect decomposition evaluated from the initial
state. -/
theorem c10_store_effects_localized_witness :
    (∃ ys top, QInterp.init.locals = ys ++ [top] ∧
      QInterp.init.store_local "x" (QType.Int 3) =
        some ⟨QInterp.init.globals, ys ++ [objInsert "x" (QType.Int 3) top]⟩) ∧
    (QInterp.init.store_global "g" (QType.Int 4)).locals = QInterp.init.locals :=
  ⟨c10_store_effects_localized.1 QInterp.init "x" (QType.Int 3)
     (by simp [QInterp.init]),
   (c10_store_effects_localized.2 QInterp.init "g" (QType.Int 4)).1⟩

/-
Stringification lemmas.
-/

/-- A successfully decoded Object key is always a Str or an Int value. -/
theorem from_qobj_key_shape {k : String} {q : QType}
    (h : from_qobj_key k = some q) :
    (∃ s, q = QType.Str s) ∨ (∃ i, q = QType.Int i) := by
  rw [from_qobj_key] at h
  rcases hd : k.data with _ | ⟨c, rest⟩ <;> rw [hd] at h
  · simp [parseI64] at h
  · have h2 : (if c = '$' then some (QType.Str (String.mk rest))
        else (parseI64 (c :: rest)).map QType.Int) = some q := h
    by_cases hc : c = '$'
    · rw [if_pos hc] at h2
      simp only [Option.some.injEq] at h2
      exact Or.inl ⟨String.mk rest, h2.symm⟩
    · rw [if_neg hc] at h2
      rcases hp : parseI64 (c :: rest) with _ | i <;> rw [hp] at h2 <;> simp at h2
      exact Or.inr ⟨i, h2.symm⟩

/-- Any well-formed value stringifies to some Str, by strong induction on
the size of the value. -/
theorem to_str_wf_aux :
    ∀ (m : Nat) (v : QType), sizeOf v ≤ m → wfQ v = true →
      ∃ s, to_str v = some (QType.Str s) := by
  intro m
  induction m using Nat.strong_induction_on with
  | _ m ih =>
    intro v hm hwf
    cases v with
    | Int i => exact ⟨intStr i, rfl⟩
    | Float f => exact ⟨f.toString, rfl⟩
    | Bool b => exact ⟨if b then "true" else "false", rfl⟩
    | Str s => exact ⟨s, rfl⟩
    | Void => exact ⟨"()", rfl⟩
    | Err => exact ⟨"err", rfl⟩
    | Func o u => exact ⟨"\\(...) => ...", rfl⟩
    | Thread t =>
      cases t with
      | none => exact ⟨"@this", rfl⟩
      | some n => exact ⟨"@" ++ natStr n, rfl⟩
    | List l =>
      have hwl : wfL l = true := hwf
      simp only [QType.List.sizeOf_spec] at hm
      have hall : ∀ x ∈ l, wfQ x = true → ∃ s, to_str x = some (QType.Str s) := by
        intro x hx hwx
        have h1 : sizeOf x < sizeOf l := List.sizeOf_lt_of_mem hx
        exact ih (sizeOf x) (by omega) x le_rfl hwx
      have inner : ∀ l2 : List QType,
          (∀ x ∈ l2, wfQ x = true → ∃ s, to_str x = some (QType.Str s)) →
          wfL l2 = true → ∃ s2, strList l2 = some s2 := by
        intro l2
        induction l2 with
        | nil => exact fun _ _ => ⟨"", rfl⟩
        | cons x xs ihx =>
          intro hall2 hwl2
          have hx : wfQ x = true ∧ wfL xs = true := by
            simpa [wfL, Bool.and_eq_true] using hwl2
          obtain ⟨s, hs⟩ := hall2 x (List.mem_cons_self x xs) hx.1
          obtain ⟨s2, hs2⟩ := ihx (fun y hy => hall2 y (List.mem_cons_of_mem x hy)) hx.2
          exact ⟨s ++ s2, by simp [strList, hs, hs2]⟩
      obtain ⟨s2, hs2⟩ := inner l hall hwl
      exact ⟨"[" ++ s2 ++ "]", by simp [to_str, hs2]⟩
    | Obj o =>
      have hwo : wfO o = true := hwf
      simp only [QType.Obj.sizeOf_spec] at hm
      have hall : ∀ p ∈ o, wfQ p.2 = true → ∃ s, to_str p.2 = some (QType.Str s) := by
        intro p hp hwp
        have h1 : sizeOf p < sizeOf o := List.sizeOf_lt_of_mem hp
        have h2 : sizeOf p.2 < sizeOf p := by
          obtain ⟨a, b⟩ := p
          show sizeOf b < sizeOf (a, b)
          simp only [Prod.mk.sizeOf_spec]
          omega
        exact ih (sizeOf p.2) (by omega) p.2 le_rfl hwp
      have inner : ∀ o2 : QObject,
          (∀ p ∈ o2, wfQ p.2 = true → ∃ s, to_str p.2 = some (QType.Str s)) →
          wfO o2 = true → ∃ s2, strObj o2 = some s2 := by
        intro o2
        induction o2 with
        | nil => exact fun _ _ => ⟨"", rfl⟩
        | cons kv rest ihr =>
          intro hall2 hwo2
          obtain ⟨k, v⟩ := kv
          have hx : (from_qobj_key k).isSome = true ∧ wfQ v = true ∧ wfO rest = true := by
            simpa [wfO, Bool.and_eq_true, and_assoc] using hwo2
          obtain ⟨q, hq⟩ := Option.isSome_iff_exists.mp hx.1
          obtain ⟨s, hs⟩ := hall2 (k, v) (List.mem_cons_self (k, v) rest) hx.2.1
          obtain ⟨s2, hs2⟩ := ihr
            (fun p hp => hall2 p (List.mem_cons_of_mem (k, v) hp)) hx.2.2
          rcases from_qobj_key_shape hq with ⟨ks, hks⟩ | ⟨ki, hki⟩
          · subst hks
            exact ⟨("\"" ++ ks ++ "\": " ++ s) ++ s2, by simp [strObj, hs, hq, hs2]⟩
          · subst hki
            exact ⟨(intStr ki ++ ": " ++ s) ++ s2, by simp [strObj, hs, hq, hs2]⟩
      by_cases hlen : o.length = 0
      · exact ⟨"\x7b\x7d", by simp [to_str, hlen]⟩
      · obtain ⟨s2, hs2⟩ := inner o hall hwo
        exact ⟨"\x7b " ++ s2 ++ " \x7d", by simp [to_str, hlen, hs2]⟩

/-- Any well-formed value stringifies to some Str. -/
theorem to_str_wf (v : QType) (h : wfQ v = true) :
    ∃ s, to_str v = some (QType.Str s) :=
  to_str_wf_aux (sizeOf v) v le_rfl h

/-- Under well-formedness, the list stringifier is the separator-free
concatenation of the element strings. -/
theorem strList_eq_concat (l : List QType) (h : wfL l = true) :
    strList l = some (concatStrs (l.map strOf)) := by
  induction l with
  | nil => rfl
  | cons x xs ih =>
    have hx : wfQ x = true ∧ wfL xs = true := by
      simpa [wfL, Bool.and_eq_true] using h
    obtain ⟨s, hs⟩ := to_str_wf x hx.1
    have hstr : strOf x = s := by simp [strOf, hs]
    simp [strList, hs, ih hx.2, concatStrs, hstr]

/-- C6 (amended): restricted to values whose Object keys are all
codec-decodable, coercion to the String kind always produces a Str, and
the specific renderings hold — Void to the text (), Error to err, the
current-thread placeholder to at-this, a defined thread id to at-n, and a
List to an opening bracket, the stringified elements concatenated with no
separator, and a closing bracket. -/
theorem c6_into_str_total :
    (∀ v : QType, wfQ v = true →
      ∃ s, into v (QType.Str "") = some (QType.Str s)) ∧
    into QType.Void (QType.Str "") = some (QType.Str "()") ∧
    into QType.Err (QType.Str "") = some (QType.Str "err") ∧
    into (QType.Thread none) (QType.Str "") = some (QType.Str "@this") ∧
    (∀ n : Nat, into (QType.Thread (some n)) (QType.Str "") =
      some (QType.Str ("@" ++ natStr n))) ∧
    (∀ l : List QType, wfL l = true →
      into (QType.List l) (QType.Str "") =
        some (QType.Str ("[" ++ concatStrs (l.map strOf) ++ "]"))) := by
  refine ⟨?_, rfl, rfl, rfl, fun n => rfl, ?_⟩
  · intro v hv
    cases v with
    | Str s => exact ⟨s, rfl⟩
    | Int i => exact ⟨intStr i, rfl⟩
    | Float f => exact ⟨f.toString, rfl⟩
    | Bool b => exact ⟨if b then "true" else "false", rfl⟩
    | Void => exact ⟨"()", rfl⟩
    | Err => exact ⟨"err", rfl⟩
    | Func o u => exact ⟨"\\(...) => ...", rfl⟩
    | Thread t =>
      cases t with
      | none => exact ⟨"@this", rfl⟩
      | some n => exact ⟨"@" ++ natStr n, rfl⟩
    | List l =>
      obtain ⟨s, hs⟩ := to_str_wf (QType.List l) hv
      exact ⟨s, hs⟩
    | Obj o =>
      obtain ⟨s, hs⟩ := to_str_wf (QType.Obj o) hv
      exact ⟨s, hs⟩
  · intro l h
    show to_str (QType.List l) = _
    simp [to_str, strList_eq_concat l h]

/-- C6 counterexample: the claim quantifies over every Value, but an
Object whose key x neither carries the sigil nor parses as an integer
makes stringification abort inside from_qobj_key — coercion to Str
returns no Str at all. -/
theorem c6_into_str_counterexample :
    into (QType.Obj [("x", QType.Int 1)]) (QType.Str "") = none := by rfl

/-- C6 witness: totality evaluated at a well-formed Object, and the List
rendering evaluated at a two-element list. -/
theorem c6_into_str_total_witness :
    (∃ s, into (QType.Obj [("$a", QType.Void)]) (QType.Str "") =
      some (QType.Str s)) ∧
    into (QType.List [QType.Void, QType.Err]) (QType.Str "") =
      some (QType.Str
        ("[" ++ concatStrs ([QType.Void, QType.Err].map strOf) ++ "]")) :=
  ⟨c6_into_str_total.1 (QType.Obj [("$a", QType.Void)]) (by rfl),
   c6_into_str_total.2.2.2.2.2 [QType.Void, QType.Err] (by rfl)⟩
